import Mathlib

/-!
# Verification of the `mytable` record store

A shallow embedding of the `mytable` library: a fixed-width block store over a
flat binary file (`table.py`), field codecs (`fields.py`) and the record layer
(`struct.py`).  The backing file is modelled as a flat list of byte values
(`List Nat`), exactly as the `Table` class sees it: `size` floor-divides the
file length by the block size, reads past the end of the file return the bytes
that are there (possibly none), and writes splice bytes into the file at a
byte offset.
-/

namespace Mytable

/-! ### Block store (`table.py`)

`Table.size`, `Table.get`, `Table.append`, `Table.update` model the methods of
the `Table` class.  A write at byte position `p` (`file.seek(p); file.write(b)`)
replaces the bytes `[p, p + b.length)`; seeking past the end of the file
zero-fills the gap, which never happens in the verified operation sequences. -/

def Table.size (bs : Nat) (file : List Nat) : Nat :=
  file.length / bs

def Table.get (bs : Nat) (file : List Nat) (idx : Nat) : List Nat :=
  (file.drop (idx * bs)).take bs

def writeAt (file : List Nat) (p : Nat) (b : List Nat) : List Nat :=
  file.take p ++ List.replicate (p - file.length) 0 ++ b ++ file.drop (p + b.length)

def Table.append (bs : Nat) (file : List Nat) (b : List Nat) : Nat × List Nat :=
  let idx := Table.size bs file
  (idx, writeAt file (idx * bs) b)

def Table.update (bs : Nat) (file : List Nat) (b : List Nat) (idx : Nat) : List Nat :=
  writeAt file (idx * bs) b

/-- The loop of `Table.find_sorted`.  The Python loop runs while `size > 0`,
shrinking `size` by at least one per iteration, so a fuel of the initial
`size` makes the `0` fuel case unreachable; fuel keeps the recursion
structural so that concrete runs evaluate by `decide`/`rfl`. -/
def Table.findSortedAux {α : Type} [LinearOrder α] (bs : Nat) (file : List Nat)
    (value : α) (get_value : List Nat → α) : Nat → Nat → Nat → Nat
  | 0, idx, _ => idx
  | fuel + 1, idx, size =>
    if size = 0 then idx
    else
      let block := Table.get bs file (idx + size / 2)
      if get_value block < value then
        Table.findSortedAux bs file value get_value fuel
          (idx + size / 2 + 1) (size / 2 + size % 2 - 1)
      else
        Table.findSortedAux bs file value get_value fuel idx (size / 2)

def Table.find_sorted {α : Type} [LinearOrder α] (bs : Nat) (file : List Nat)
    (value : α) (get_value : List Nat → α) : Nat :=
  Table.findSortedAux bs file value get_value
    (Table.size bs file) 0 (Table.size bs file)

/-! ### Errors (`errors.py`)

Only the kinds matter; `structPackError`, `typeError`, `unicodeEncodeError`
and `unicodeDecodeError` stand for the Python builtin exceptions that
`struct.pack`/`struct.unpack`, attribute access and `str`/`bytes` conversion
raise outside the library's own hierarchy. -/

inductive Err
  | idError
  | noFieldError
  | validationError
  | tooLongError
  | invalidLengthError
  | structPackError
  | typeError
  | unicodeEncodeError
  | unicodeDecodeError
  deriving DecidableEq

/-! ### Values

A Python value stored in a field: a `str` is its list of Unicode code points,
a `bytes` its list of byte values, numbers are unbounded `Int` as in Python.
A Python `float` is an IEEE-754 binary64 value, carried exactly as its 64-bit
pattern (`bits < 2^64`); this keeps the embedding in integers while losing
nothing, since `struct.pack`/`unpack` act on the bit pattern.  `None` never
appears in the verified runs, so the base `validate` check for absent values
is not modelled. -/

inductive Value
  | str (s : List Nat)
  | bytes (b : List Nat)
  | int (n : Int)
  | bool (b : Bool)
  | float (bits : Nat)
  deriving DecidableEq

/-! ### Field codecs (`fields.py`)

One constructor per concrete field class. -/

inductive BaseField
  | varchar (length : Nat)
  | bytes (length : Nat)
  | uint8
  | uint16
  | uint32
  | uint64
  | int8
  | int16
  | int32
  | int64
  | boolean
  | float32
  | float64
  deriving DecidableEq

def BaseField.sizeof : BaseField → Nat
  | .varchar n => n
  | .bytes n => n
  | .uint8 => 1
  | .uint16 => 2
  | .uint32 => 4
  | .uint64 => 8
  | .int8 => 1
  | .int16 => 2
  | .int32 => 4
  | .int64 => 8
  | .boolean => 1
  | .float32 => 4
  | .float64 => 8

/-- Big-endian fixed-width integer bytes, as `struct.pack` with `>B >H >I >Q`
writes them. -/
def natToBytesBE : Nat → Nat → List Nat
  | 0, _ => []
  | w + 1, n => natToBytesBE w (n / 256) ++ [n % 256]

def bytesToNatBE (l : List Nat) : Nat :=
  l.foldl (fun acc b => acc * 256 + b) 0

/-- Little-endian fixed-width bytes: the float formats use the platform's
native byte order (`struct.pack("f")`/`("d")`), little-endian on the x86
machines the library runs on — the spec flags this native-order caveat. -/
def natToBytesLE : Nat → Nat → List Nat
  | 0, _ => []
  | w + 1, n => n % 256 :: natToBytesLE w (n / 256)

def bytesToNatLE : List Nat → Nat
  | [] => 0
  | b :: r => b + 256 * bytesToNatLE r

/-- Number of bits of `n` (`0` for `0`); the fuel keeps the recursion
structural and `64` covers every value that can appear (all are `< 2^64`). -/
def bitLenAux : Nat → Nat → Nat
  | 0, _ => 0
  | fuel + 1, n => if n = 0 then 0 else bitLenAux fuel (n / 2) + 1

def bitLen (n : Nat) : Nat :=
  bitLenAux 64 n

/-- `a / 2^k` rounded to the nearest integer, ties to even — the IEEE-754
default rounding used when narrowing a double to single precision. -/
def rndHalfEven (a k : Nat) : Nat :=
  if 2 * (a % 2 ^ k) > 2 ^ k then a / 2 ^ k + 1
  else if 2 * (a % 2 ^ k) < 2 ^ k then a / 2 ^ k
  else if a / 2 ^ k % 2 = 0 then a / 2 ^ k else a / 2 ^ k + 1

/-- Assemble a binary32 pattern from sign `s`, rounded significand
`n < 2^24` and quantum exponent `q`: overflow (`q > 104`, magnitude
`≥ 2^128`) makes Python raise `OverflowError`; `n < 2^23` is the subnormal
(or zero) form at `q = -149`; otherwise the biased exponent is `q + 150`. -/
def f32Finish (s n : Nat) (q : Int) : Option Nat :=
  if 104 < q then none
  else if n < 2 ^ 23 then some (s * 2 ^ 31 + n)
  else some (s * 2 ^ 31 + (q + 150).toNat * 2 ^ 23 + (n - 2 ^ 23))

/-- Rounding can carry up to `n = 2^24` exactly; renormalize first. -/
def f32Carry (s n : Nat) (q : Int) : Option Nat :=
  if n < 2 ^ 24 then f32Finish s n q else f32Finish s (n / 2) (q + 1)

/-- Round the magnitude `sig * 2^ex` to an integer multiple of `2^q`,
ties to even. -/
def f32RoundAt (sig : Nat) (ex q : Int) : Nat :=
  if q ≤ ex then sig * 2 ^ (ex - q).toNat else rndHalfEven sig (q - ex).toNat

/-- Narrow the nonzero magnitude `sig * 2^ex` (with `sig` the full binary64
significand) to binary32: the target quantum is `2^(e-23)` for a normal
result and `2^(-149)` below the normal range. -/
def f64ToF32Sig (s sig : Nat) (ex : Int) : Option Nat :=
  f32Carry s (f32RoundAt sig ex (max ((bitLen sig : Int) - 1 + ex - 23) (-149)))
    (max ((bitLen sig : Int) - 1 + ex - 23) (-149))

/-- The binary32 bit pattern `struct.pack("f", v)` writes for the binary64
bit pattern `bits`: round to nearest, ties to even; `none` when a finite
double overflows the single-precision range (Python raises `OverflowError`).
An infinity stays an infinity; a NaN keeps its sign, is quieted and has its
payload truncated.  Checked against CPython's `struct` on 20000 doubles. -/
def f64ToF32Bits (bits : Nat) : Option Nat :=
  if bits / 2 ^ 52 % 2 ^ 11 = 2047 then
    some (bits / 2 ^ 63 * 2 ^ 31 + 255 * 2 ^ 23 +
      (if bits % 2 ^ 52 = 0 then 0 else 2 ^ 22 + bits % 2 ^ 52 / 2 ^ 29 % 2 ^ 22))
  else if bits / 2 ^ 52 % 2 ^ 11 = 0 then
    if bits % 2 ^ 52 = 0 then some (bits / 2 ^ 63 * 2 ^ 31)
    else f64ToF32Sig (bits / 2 ^ 63) (bits % 2 ^ 52) (-1074)
  else
    f64ToF32Sig (bits / 2 ^ 63) (2 ^ 52 + bits % 2 ^ 52)
      (((bits / 2 ^ 52 % 2 ^ 11 : Nat) : Int) - 1075)

/-- The binary64 bit pattern of the exact widening `struct.unpack("f")`
performs (every binary32 value is exactly representable in binary64). -/
def f32ToF64Bits (bits32 : Nat) : Nat :=
  let s := bits32 / 2 ^ 31 % 2
  let e := bits32 / 2 ^ 23 % 2 ^ 8
  let m := bits32 % 2 ^ 23
  if e = 255 then s * 2 ^ 63 + 2047 * 2 ^ 52 + m * 2 ^ 29
  else if e = 0 then
    if m = 0 then s * 2 ^ 63
    else s * 2 ^ 63 + (bitLen m + 873) * 2 ^ 52 +
      (m - 2 ^ (bitLen m - 1)) * 2 ^ (53 - bitLen m)
  else s * 2 ^ 63 + (e + 896) * 2 ^ 52 + m * 2 ^ 29

/-- A Unicode scalar value: what one position of a Python `str` holds when the
string can be UTF-8 encoded (surrogates make `str.encode` raise). -/
def scalarOk (c : Nat) : Prop :=
  c < 0x110000 ∧ (c < 0xD800 ∨ 0xE000 ≤ c)

instance (c : Nat) : Decidable (scalarOk c) := by
  unfold scalarOk
  exact inferInstance

def utf8EncodeChar (c : Nat) : List Nat :=
  if c < 0x80 then [c]
  else if c < 0x800 then [0xC0 + c / 64, 0x80 + c % 64]
  else if c < 0x10000 then [0xE0 + c / 4096, 0x80 + c / 64 % 64, 0x80 + c % 64]
  else [0xF0 + c / 0x40000, 0x80 + c / 4096 % 64, 0x80 + c / 64 % 64, 0x80 + c % 64]

def utf8Encode : List Nat → List Nat
  | [] => []
  | c :: s => utf8EncodeChar c ++ utf8Encode s

/-- Strict UTF-8 decoding (`bytes.decode()`): rejects stray continuation
bytes, overlong forms, surrogates and out-of-range sequences.  The fuel is
the length of the byte list, which bounds the number of decoded characters,
so the `0` fuel case with a nonempty list is unreachable; fuel keeps the
recursion structural. -/
def utf8DecodeAux : Nat → List Nat → Option (List Nat)
  | _, [] => some []
  | 0, _ :: _ => none
  | fuel + 1, b :: r =>
    if b < 0x80 then
      (utf8DecodeAux fuel r).map (fun s => b :: s)
    else if b < 0xC2 then
      none
    else if b < 0xE0 then
      match r with
      | b1 :: r1 =>
        if 0x80 ≤ b1 ∧ b1 < 0xC0 then
          (utf8DecodeAux fuel r1).map (fun s => ((b - 0xC0) * 64 + (b1 - 0x80)) :: s)
        else none
      | [] => none
    else if b < 0xF0 then
      match r with
      | b1 :: b2 :: r1 =>
        if (0x80 ≤ b1 ∧ b1 < 0xC0) ∧ (0x80 ≤ b2 ∧ b2 < 0xC0) ∧
            (b = 0xE0 → 0xA0 ≤ b1) ∧ (b = 0xED → b1 < 0xA0) then
          (utf8DecodeAux fuel r1).map
            (fun s => ((b - 0xE0) * 4096 + (b1 - 0x80) * 64 + (b2 - 0x80)) :: s)
        else none
      | _ => none
    else if b < 0xF5 then
      match r with
      | b1 :: b2 :: b3 :: r1 =>
        if (0x80 ≤ b1 ∧ b1 < 0xC0) ∧ (0x80 ≤ b2 ∧ b2 < 0xC0) ∧
            (0x80 ≤ b3 ∧ b3 < 0xC0) ∧
            (b = 0xF0 → 0x90 ≤ b1) ∧ (b = 0xF4 → b1 < 0x90) then
          (utf8DecodeAux fuel r1).map
            (fun s => ((b - 0xF0) * 0x40000 + (b1 - 0x80) * 4096 +
              (b2 - 0x80) * 64 + (b3 - 0x80)) :: s)
        else none
      | _ => none
    else none

def utf8Decode (l : List Nat) : Option (List Nat) :=
  utf8DecodeAux l.length l

/-- `len(value)`: defined for `str` and `bytes`, a `TypeError` on numbers. -/
def pyLen : Value → Except Err Nat
  | .str s => .ok s.length
  | .bytes b => .ok b.length
  | .int _ => .error .typeError
  | .bool _ => .error .typeError
  | .float _ => .error .typeError

/-- `validate`: the numeric and boolean fields only run the base check (the
value is not `None`, which the embedding cannot produce); `Varchar` rejects a
value longer than `length` code points, `Bytes` a value whose length differs
from `length`. -/
def BaseField.validate : BaseField → Value → Except Err Unit
  | .varchar n, v => do
    let l ← pyLen v
    if n < l then .error .tooLongError else .ok ()
  | .bytes n, v => do
    let l ← pyLen v
    if l = n then .ok () else .error .invalidLengthError
  | _, _ => .ok ()

/-- `struct.pack` integer argument: Python `bool` is an `int` subtype. -/
def Value.asPackInt : Value → Except Err Int
  | .int n => .ok n
  | .bool b => .ok (if b then 1 else 0)
  | _ => .error .structPackError

/-- Python truthiness, as `struct.pack` with format `?` applies it; a float
is falsy exactly for `±0.0` (sign bit ignored, everything else zero). -/
def Value.truthy : Value → Bool
  | .int n => n != 0
  | .bool b => b
  | .str s => !s.isEmpty
  | .bytes b => !b.isEmpty
  | .float bits => bits % 2 ^ 63 != 0

/-- `struct.pack` with an unsigned big-endian format of `w` bytes: raises
`struct.error` outside `[0, 2^(8w))`. -/
def uintToBytes (w : Nat) (n : Int) : Except Err (List Nat) :=
  if 0 ≤ n ∧ n < 2 ^ (8 * w) then .ok (natToBytesBE w n.toNat)
  else .error .structPackError

/-- `struct.pack` with a signed big-endian format: two's complement. -/
def sintToBytes (w : Nat) (n : Int) : Except Err (List Nat) :=
  if -(2 ^ (8 * w - 1)) ≤ n ∧ n < 2 ^ (8 * w - 1) then
    .ok (natToBytesBE w (n % 2 ^ (8 * w)).toNat)
  else .error .structPackError

def uintFromBytes (w : Nat) (block : List Nat) : Except Err Value :=
  if block.length = w then .ok (.int (bytesToNatBE block))
  else .error .structPackError

def sintFromBytes (w : Nat) (block : List Nat) : Except Err Value :=
  if block.length = w then
    .ok (.int (if bytesToNatBE block < 2 ^ (8 * w - 1) then (bytesToNatBE block : Int)
      else (bytesToNatBE block : Int) - 2 ^ (8 * w)))
  else .error .structPackError

/-- `to_bytes` of each field class.  `Varchar` UTF-8 encodes and zero-pads to
`length` bytes (`b"\x00" * k` is empty for negative `k`, so an over-long
encoding is returned unpadded and untruncated); `Bytes` passes the value
through with no length check.  For the float formats, `struct.pack`'s
numeric coercion of non-float arguments (an `int` would be converted) is
collapsed to the pack error; no verified statement passes one. -/
def BaseField.to_bytes : BaseField → Value → Except Err (List Nat)
  | .varchar n, .str s =>
    if ∀ c ∈ s, scalarOk c then
      .ok (utf8Encode s ++ List.replicate (n - (utf8Encode s).length) 0)
    else .error .unicodeEncodeError
  | .varchar _, _ => .error .typeError
  | .bytes _, .bytes b => .ok b
  | .bytes _, _ => .error .typeError
  | .uint8, v => do uintToBytes 1 (← v.asPackInt)
  | .uint16, v => do uintToBytes 2 (← v.asPackInt)
  | .uint32, v => do uintToBytes 4 (← v.asPackInt)
  | .uint64, v => do uintToBytes 8 (← v.asPackInt)
  | .int8, v => do sintToBytes 1 (← v.asPackInt)
  | .int16, v => do sintToBytes 2 (← v.asPackInt)
  | .int32, v => do sintToBytes 4 (← v.asPackInt)
  | .int64, v => do sintToBytes 8 (← v.asPackInt)
  | .boolean, v => .ok [if v.truthy then 1 else 0]
  | .float32, .float bits =>
    match f64ToF32Bits bits with
    | some b32 => .ok (natToBytesLE 4 b32)
    | none => .error .structPackError
  | .float32, _ => .error .structPackError
  | .float64, .float bits => .ok (natToBytesLE 8 bits)
  | .float64, _ => .error .structPackError

/-- `from_bytes` of each field class.  `Varchar` decodes the whole block —
trailing padding included, `self.length` unused; `Bytes` passes the block
through; `struct.unpack` demands the exact width. -/
def BaseField.from_bytes : BaseField → List Nat → Except Err Value
  | .varchar _, block =>
    match utf8Decode block with
    | some s => .ok (.str s)
    | none => .error .unicodeDecodeError
  | .bytes _, block => .ok (.bytes block)
  | .uint8, block => uintFromBytes 1 block
  | .uint16, block => uintFromBytes 2 block
  | .uint32, block => uintFromBytes 4 block
  | .uint64, block => uintFromBytes 8 block
  | .int8, block => sintFromBytes 1 block
  | .int16, block => sintFromBytes 2 block
  | .int32, block => sintFromBytes 4 block
  | .int64, block => sintFromBytes 8 block
  | .boolean, block =>
    if block.length = 1 then .ok (.bool (block.headD 0 != 0))
    else .error .structPackError
  | .float32, block =>
    if block.length = 4 then .ok (.float (f32ToF64Bits (bytesToNatLE block)))
    else .error .structPackError
  | .float64, block =>
    if block.length = 8 then .ok (.float (bytesToNatLE block))
    else .error .structPackError

/-- The value `from_bytes` recovers from `to_bytes` output: the identity on
every field except `Varchar`, whose decode keeps the zero padding, and
`Float32`, whose narrowing re-rounds the double to single precision. -/
def BaseField.decoded : BaseField → Value → Value
  | .varchar n, .str s => .str (s ++ List.replicate (n - (utf8Encode s).length) 0)
  | .float32, .float bits => .float (f32ToF64Bits ((f64ToF32Bits bits).getD 0))
  | _, v => v

/-- A well-typed, validated, encodable value of a field: the shape matches
the field class, `validate` passes, the encoding fits the declared width and
`struct.pack` would accept the number. -/
def BaseField.wf : BaseField → Value → Prop
  | .varchar n, .str s => (∀ c ∈ s, scalarOk c) ∧ s.length ≤ n ∧ (utf8Encode s).length ≤ n
  | .bytes n, .bytes b => b.length = n
  | .uint8, .int i => 0 ≤ i ∧ i < 2 ^ 8
  | .uint16, .int i => 0 ≤ i ∧ i < 2 ^ 16
  | .uint32, .int i => 0 ≤ i ∧ i < 2 ^ 32
  | .uint64, .int i => 0 ≤ i ∧ i < 2 ^ 64
  | .int8, .int i => -(2 ^ 7) ≤ i ∧ i < 2 ^ 7
  | .int16, .int i => -(2 ^ 15) ≤ i ∧ i < 2 ^ 15
  | .int32, .int i => -(2 ^ 31) ≤ i ∧ i < 2 ^ 31
  | .int64, .int i => -(2 ^ 63) ≤ i ∧ i < 2 ^ 63
  | .boolean, .bool _ => True
  | .float32, .float bits => bits < 2 ^ 64 ∧ (f64ToF32Bits bits).isSome = true
  | .float64, .float bits => bits < 2 ^ 64
  | _, _ => False

/-- The value's Python type is the one the field class stores (`str` for
`Varchar`, `bytes` for `Bytes`, `int` for the integer fields, `bool` for
`Boolean`, `float` for the float fields — a Python float always has a 64-bit
pattern). -/
def BaseField.typed : BaseField → Value → Prop
  | .varchar _, .str _ => True
  | .bytes _, .bytes _ => True
  | .uint8, .int _ => True
  | .uint16, .int _ => True
  | .uint32, .int _ => True
  | .uint64, .int _ => True
  | .int8, .int _ => True
  | .int16, .int _ => True
  | .int32, .int _ => True
  | .int64, .int _ => True
  | .boolean, .bool _ => True
  | .float32, .float bits => bits < 2 ^ 64
  | .float64, .float bits => bits < 2 ^ 64
  | _, _ => False

/-! ### Record layer (`struct.py`)

A schema is the ordered list of `(name, field)` class attributes that are
`BaseField` instances; a record instance is the parallel list of its current
attribute values.  The position `idPos` of the field named `id` stands for
the by-name attribute access `self.id` / `self.__class__.__dict__["id"]`. -/

abbrev Schema := List (String × BaseField)

abbrev Record := List Value

def Struct.block_size (schema : Schema) : Nat :=
  (schema.map (fun nf => nf.2.sizeof)).sum

/-- `__init_subclass__`: raises `NoFieldError` when no class attribute is
named `id`; nothing else about the `id` attribute is checked. -/
def initSubclassCheck (schema : Schema) : Except Err Unit :=
  if "id" ∈ schema.map Prod.fst then .ok () else .error .noFieldError

/-- `as_bytes`: concatenation of each field's `to_bytes` in schema order. -/
def Struct.as_bytes : Schema → Record → Except Err (List Nat)
  | [], [] => .ok []
  | (_, f) :: fs, v :: vs => do
    let b ← f.to_bytes v
    let rest ← Struct.as_bytes fs vs
    .ok (b ++ rest)
  | _, _ => .error .typeError

/-- The slicing loop of `from_bytes`: each field decodes
`block[offset : offset + size]` and the offset advances by `size`. -/
def Struct.decodeFields : Schema → List Nat → Except Err Record
  | [], _ => .ok []
  | (_, f) :: fs, block => do
    let v ← f.from_bytes (block.take f.sizeof)
    let rest ← Struct.decodeFields fs (block.drop f.sizeof)
    .ok (v :: rest)

/-- `cls(**kwargs)`: `__init__` assigns every field, and `__setattr__` runs
the field's `validate` on each assignment. -/
def Struct.validateRecord : Schema → Record → Except Err Unit
  | [], [] => .ok ()
  | (_, f) :: fs, v :: vs => do
    let _ ← f.validate v
    Struct.validateRecord fs vs
  | _, _ => .error .typeError

/-- `from_bytes`: decode every slice, then construct (which validates). -/
def Struct.from_bytes (schema : Schema) (block : List Nat) : Except Err Record := do
  let r ← Struct.decodeFields schema block
  let _ ← Struct.validateRecord schema r
  .ok r

/-- `get_index_by_id`: valid iff `0 < id ≤ size`, mapping to `id - 1`. -/
def Struct.get_index_by_id (size : Nat) (id : Int) : Except Err Nat :=
  if 0 < id ∧ id ≤ (size : Int) then .ok (id - 1).toNat else .error .idError

/-- Reading the `id` attribute of a record instance. -/
def Struct.getId (idPos : Nat) (r : Record) : Except Err Value :=
  match r.get? idPos with
  | some v => .ok v
  | none => .error .typeError

/-- Python `value == 0`, as `insert` tests `self.id != 0`:
`False == 0` is true because `bool` is an `int` subtype. -/
def Value.pyEqZero : Value → Bool
  | .int n => n == 0
  | .bool b => !b
  | .float bits => bits % 2 ^ 63 == 0
  | _ => false

/-- Python `id > 0 and id <= size`: comparing a non-number with an `int`
raises `TypeError`.  A float id would compare numerically and then fail with
a `TypeError` at the file seek once used as an index; the embedding collapses
that to the type error here — no verified statement stores a float id. -/
def Value.asCmpInt : Value → Except Err Int
  | .int n => .ok n
  | .bool b => .ok (if b then 1 else 0)
  | _ => .error .typeError

/-- `insert`: requires `id == 0`; appends the record's encoding (still with
`id = 0`), assigns `id = idx + 1` (running the `id` field's `validate`),
re-encodes and rewrites the appended block, and returns the new id. -/
def Struct.insert (schema : Schema) (idPos : Nat) (r : Record) (file : List Nat) :
    Except Err (Int × Record × List Nat) := do
  let idv ← Struct.getId idPos r
  if !idv.pyEqZero then .error .idError
  else do
    let bs := Struct.block_size schema
    let b ← Struct.as_bytes schema r
    let (idx, file1) := Table.append bs file b
    let fid ← match schema.get? idPos with
      | some nf => .ok nf.2
      | none => .error .typeError
    let _ ← fid.validate (.int ((idx : Int) + 1))
    let r1 := r.set idPos (.int ((idx : Int) + 1))
    let b1 ← Struct.as_bytes schema r1
    let file2 := Table.update bs file1 b1 idx
    .ok ((idx : Int) + 1, r1, file2)

/-- `update`: resolves the record's current `id` to an index and overwrites
that block with the record's current encoding. -/
def Struct.update (schema : Schema) (idPos : Nat) (r : Record) (file : List Nat) :
    Except Err (List Nat) := do
  let bs := Struct.block_size schema
  let idv ← Struct.getId idPos r
  let idi ← idv.asCmpInt
  let idx ← Struct.get_index_by_id (Table.size bs file) idi
  let b ← Struct.as_bytes schema r
  .ok (Table.update bs file b idx)

/-- `get`: resolves `id` to an index, reads that block and decodes it. -/
def Struct.get (schema : Schema) (id : Int) (file : List Nat) : Except Err Record := do
  let bs := Struct.block_size schema
  let idx ← Struct.get_index_by_id (Table.size bs file) id
  Struct.from_bytes schema (Table.get bs file idx)

/-- All field values of a record are well formed for their fields. -/
def Struct.wfRecord : Schema → Record → Prop
  | [], [] => True
  | (_, f) :: fs, v :: vs => f.wf v ∧ Struct.wfRecord fs vs
  | _, _ => False

/-- The record `from_bytes` recovers from a stored `as_bytes` image:
fieldwise `BaseField.decoded`. -/
def Struct.decodedRecord : Schema → Record → Record
  | (_, f) :: fs, v :: vs => f.decoded v :: Struct.decodedRecord fs vs
  | _, _ => []

/-! ### Binary search lemmas -/

theorem Table.findSortedAux_bounds {α : Type} [LinearOrder α] (bs : Nat)
    (file : List Nat) (value : α) (gv : List Nat → α) :
    ∀ fuel idx size, idx ≤ Table.findSortedAux bs file value gv fuel idx size ∧
      Table.findSortedAux bs file value gv fuel idx size ≤ idx + size := by
  intro fuel
  induction fuel with
  | zero => intro idx size; simp [Table.findSortedAux]
  | succ fuel ih =>
    intro idx size
    rw [Table.findSortedAux]
    by_cases h0 : size = 0
    · simp [h0]
    · simp only [h0, if_false]
      by_cases hcmp : gv (Table.get bs file (idx + size / 2)) < value
      · simp only [hcmp, if_true]
        have h := ih (idx + size / 2 + 1) (size / 2 + size % 2 - 1)
        omega
      · simp only [hcmp, if_false]
        have h := ih idx (size / 2)
        omega

/-- Invariant proof for the binary-search loop: if everything strictly left of
`idx` has key `< v` and everything at or right of `idx + size` has key `≥ v`,
the loop returns the boundary index. -/
theorem Table.findSortedAux_spec {α : Type} [LinearOrder α] (bs : Nat)
    (file : List Nat) (v : α) (key : List Nat → α) (n : Nat)
    (hmono : ∀ j, j < n → ∀ i, i < j →
      key (Table.get bs file i) ≤ key (Table.get bs file j)) :
    ∀ fuel size idx, size ≤ fuel → idx + size ≤ n →
      (∀ j, j < idx → key (Table.get bs file j) < v) →
      (∀ j, idx + size ≤ j → j < n → v ≤ key (Table.get bs file j)) →
      (∀ j, j < Table.findSortedAux bs file v key fuel idx size →
        key (Table.get bs file j) < v) ∧
      (∀ j, Table.findSortedAux bs file v key fuel idx size ≤ j → j < n →
        v ≤ key (Table.get bs file j)) ∧
      Table.findSortedAux bs file v key fuel idx size ≤ idx + size := by
  intro fuel
  induction fuel with
  | zero =>
    intro size idx hfuel hle hlow hhigh
    have hsz : size = 0 := Nat.le_zero.mp hfuel
    subst hsz
    simp only [Table.findSortedAux]
    exact ⟨hlow, fun j hj hjn => hhigh j (by omega) hjn, Nat.le_add_right _ _⟩
  | succ fuel ih =>
    intro size idx hfuel hle hlow hhigh
    rw [Table.findSortedAux]
    by_cases h0 : size = 0
    · subst h0
      rw [if_pos rfl]
      exact ⟨hlow, fun j hj hjn => hhigh j (by omega) hjn, Nat.le_add_right _ _⟩
    · simp only [h0, if_false]
      have hmid : idx + size / 2 < n := by omega
      by_cases hcmp : key (Table.get bs file (idx + size / 2)) < v
      · simp only [hcmp, if_true]
        have hlow' : ∀ j, j < idx + size / 2 + 1 → key (Table.get bs file j) < v := by
          intro j hj
          by_cases hji : j < idx
          · exact hlow j hji
          · rcases Nat.lt_or_ge j (idx + size / 2) with hjm | hjm
            · exact lt_of_le_of_lt (hmono (idx + size / 2) hmid j hjm) hcmp
            · have : j = idx + size / 2 := by omega
              simpa [this] using hcmp
        have hhigh' : ∀ j, idx + size / 2 + 1 + (size / 2 + size % 2 - 1) ≤ j →
            j < n → v ≤ key (Table.get bs file j) := by
          intro j hj hjn
          exact hhigh j (by omega) hjn
        have := ih (size / 2 + size % 2 - 1) (idx + size / 2 + 1)
          (by omega) (by omega) hlow' hhigh'
        exact ⟨this.1, this.2.1, by omega⟩
      · simp only [hcmp, if_false]
        have hvm : v ≤ key (Table.get bs file (idx + size / 2)) := le_of_not_lt hcmp
        have hhigh' : ∀ j, idx + size / 2 ≤ j → j < n →
            v ≤ key (Table.get bs file j) := by
          intro j hj hjn
          rcases Nat.lt_or_ge j (idx + size) with hjs | hjs
          · rcases Nat.eq_or_lt_of_le hj with hje | hjl
            · simpa [← hje] using hvm
            · exact le_trans hvm (hmono j hjn (idx + size / 2) hjl)
          · exact hhigh j hjs hjn
        have := ih (size / 2) idx (by omega) (by omega) hlow hhigh'
        exact ⟨this.1, this.2.1, by omega⟩

/-- C1: on a store of `n` blocks that is non-decreasing under `key`,
`find_sorted` returns the lower bound for the probe `v`: the smallest index
`i < n` with `key (block i) ≥ v`, and `n` when no block qualifies (hence `0`
on an empty store). -/
theorem find_sorted_lower_bound {α : Type} [LinearOrder α] (bs : Nat)
    (file : List Nat) (v : α) (key : List Nat → α)
    (hmono : ∀ j, j < Table.size bs file → ∀ i, i < j →
      key (Table.get bs file i) ≤ key (Table.get bs file j)) :
    Table.find_sorted bs file v key ≤ Table.size bs file ∧
    (∀ j, j < Table.find_sorted bs file v key →
      key (Table.get bs file j) < v) ∧
    (Table.find_sorted bs file v key < Table.size bs file →
      v ≤ key (Table.get bs file (Table.find_sorted bs file v key))) := by
  have h := Table.findSortedAux_spec bs file v key (Table.size bs file)
    hmono (Table.size bs file) (Table.size bs file) 0
    (le_refl _) (by omega) (by omega) (by omega)
  refine ⟨by simpa [Table.find_sorted] using h.2.2, ?_, ?_⟩
  · intro j hj
    exact h.1 j hj
  · intro hlt
    exact h.2.1 _ (le_refl _) hlt

/-- Witness for C1 at a concrete sorted store: block size 1, bytes
`[1, 2, 3]`, key = first byte, probe 2; the lower bound is index 1. -/
theorem find_sorted_lower_bound_witness :
    Table.find_sorted 1 [1, 2, 3] 2 (fun b => b.headD 0) ≤ Table.size 1 [1, 2, 3] ∧
    (∀ j, j < Table.find_sorted 1 [1, 2, 3] 2 (fun b => b.headD 0) →
      (fun b => b.headD 0) (Table.get 1 [1, 2, 3] j) < 2) ∧
    (Table.find_sorted 1 [1, 2, 3] 2 (fun b => b.headD 0) < Table.size 1 [1, 2, 3] →
      2 ≤ (fun b => b.headD 0)
        (Table.get 1 [1, 2, 3] (Table.find_sorted 1 [1, 2, 3] 2 (fun b => b.headD 0)))) :=
  find_sorted_lower_bound 1 [1, 2, 3] 2 (fun b => b.headD 0) (by decide)

/-- C10: on any store (sorted or not) and any key function, `find_sorted`
is a total function whose result lies in `[0, size]`. -/
theorem find_sorted_in_range {α : Type} [LinearOrder α] (bs : Nat)
    (file : List Nat) (v : α) (key : List Nat → α) :
    Table.find_sorted bs file v key ≤ Table.size bs file := by
  have h := Table.findSortedAux_bounds bs file v key
    (Table.size bs file) 0 (Table.size bs file)
  simpa [Table.find_sorted] using h.2

/-! ### Integer codec lemmas -/

theorem natToBytesBE_length (w n : Nat) : (natToBytesBE w n).length = w := by
  induction w generalizing n with
  | zero => rfl
  | succ w ih => simp [natToBytesBE, ih]

theorem bytesToNatBE_snoc (l : List Nat) (x : Nat) :
    bytesToNatBE (l ++ [x]) = bytesToNatBE l * 256 + x := by
  unfold bytesToNatBE
  rw [List.foldl_append]
  rfl

theorem bytesToNatBE_natToBytesBE (w n : Nat) (h : n < 256 ^ w) :
    bytesToNatBE (natToBytesBE w n) = n := by
  induction w generalizing n with
  | zero =>
    have h0 : n = 0 := by simpa using h
    simp [h0, natToBytesBE, bytesToNatBE]
  | succ w ih =>
    have h2 : n / 256 < 256 ^ w := by
      rw [Nat.div_lt_iff_lt_mul (by norm_num)]
      calc n < 256 ^ (w + 1) := h
        _ = 256 ^ w * 256 := by rw [pow_succ]
    rw [natToBytesBE, bytesToNatBE_snoc, ih _ h2]
    omega

theorem pow256_eq (w : Nat) : (2 : Nat) ^ (8 * w) = 256 ^ w := by
  rw [Nat.pow_mul]

theorem uintFromBytes_uintToBytes (w : Nat) (n : Int) (b : List Nat)
    (h : uintToBytes w n = .ok b) : uintFromBytes w b = .ok (.int n) := by
  unfold uintToBytes at h
  by_cases hr : 0 ≤ n ∧ n < 2 ^ (8 * w)
  · rw [if_pos hr] at h
    injection h with h
    subst h
    unfold uintFromBytes
    rw [if_pos (natToBytesBE_length _ _)]
    have hcast : (((2 : Nat) ^ (8 * w) : Nat) : Int) = (2 : Int) ^ (8 * w) := by
      push_cast
      ring
    have hlt : n.toNat < 2 ^ (8 * w) := by
      have h1 := hr.1
      have h2 := hr.2
      omega
    rw [bytesToNatBE_natToBytesBE _ _ (pow256_eq w ▸ hlt)]
    rw [Int.toNat_of_nonneg hr.1]
  · rw [if_neg hr] at h
    exact absurd h (by simp)

theorem sintFromBytes_sintToBytes (w : Nat) (hw : 0 < w) (n : Int) (b : List Nat)
    (h : sintToBytes w n = .ok b) : sintFromBytes w b = .ok (.int n) := by
  unfold sintToBytes at h
  by_cases hr : -(2 ^ (8 * w - 1)) ≤ n ∧ n < 2 ^ (8 * w - 1)
  · rw [if_pos hr] at h
    injection h with h
    subst h
    have hcastP : (((2 : Nat) ^ (8 * w) : Nat) : Int) = (2 : Int) ^ (8 * w) := by
      push_cast
      ring
    have hcastH : (((2 : Nat) ^ (8 * w - 1) : Nat) : Int) = (2 : Int) ^ (8 * w - 1) := by
      push_cast
      ring
    have hHP : (2 : Int) ^ (8 * w - 1) * 2 = 2 ^ (8 * w) := by
      rw [← pow_succ]
      congr 1
      omega
    have hPpos : (0 : Int) < 2 ^ (8 * w) := by positivity
    have hmod : n % (2 : Int) ^ (8 * w) = n ∨ n % (2 : Int) ^ (8 * w) = n + 2 ^ (8 * w) := by
      by_cases hn : 0 ≤ n
      · left
        exact Int.emod_eq_of_lt hn (by omega)
      · right
        have h1 : (n + (2 : Int) ^ (8 * w) * 1) % (2 : Int) ^ (8 * w) = n % 2 ^ (8 * w) :=
          Int.add_mul_emod_self_left n (2 ^ (8 * w)) 1
        rw [mul_one] at h1
        have h2 : (n + 2 ^ (8 * w)) % (2 : Int) ^ (8 * w) = n + 2 ^ (8 * w) :=
          Int.emod_eq_of_lt (by omega) (by omega)
        omega
    have hm0 : (0 : Int) ≤ n % 2 ^ (8 * w) := Int.emod_nonneg n (by positivity)
    have hmP : n % (2 : Int) ^ (8 * w) < 2 ^ (8 * w) := Int.emod_lt_of_pos n hPpos
    unfold sintFromBytes
    rw [if_pos (natToBytesBE_length _ _)]
    have hmlt : (n % (2 : Int) ^ (8 * w)).toNat < 256 ^ w := by
      rw [← pow256_eq]
      omega
    rw [bytesToNatBE_natToBytesBE _ _ hmlt]
    have hval : ((n % (2 : Int) ^ (8 * w)).toNat : Int) = n % 2 ^ (8 * w) :=
      Int.toNat_of_nonneg hm0
    rcases hmod with hm | hm <;>
      rcases hr with ⟨hr1, hr2⟩ <;>
      split <;>
      rename_i hcnd <;>
      · congr 1
        congr 1
        omega
  · rw [if_neg hr] at h
    exact absurd h (by simp)

/-! ### Float codec lemmas -/

theorem natToBytesLE_length (w n : Nat) : (natToBytesLE w n).length = w := by
  induction w generalizing n with
  | zero => rfl
  | succ w ih => simp [natToBytesLE, ih]

theorem bytesToNatLE_natToBytesLE (w n : Nat) (h : n < 256 ^ w) :
    bytesToNatLE (natToBytesLE w n) = n := by
  induction w generalizing n with
  | zero =>
    have h0 : n = 0 := by simpa using h
    simp [h0, natToBytesLE, bytesToNatLE]
  | succ w ih =>
    have h2 : n / 256 < 256 ^ w := by
      rw [Nat.div_lt_iff_lt_mul (by norm_num)]
      calc n < 256 ^ (w + 1) := h
        _ = 256 ^ w * 256 := by rw [pow_succ]
    rw [natToBytesLE, bytesToNatLE, ih _ h2]
    omega

theorem bitLenAux_lt (fuel : Nat) : ∀ n, n < 2 ^ fuel → n < 2 ^ bitLenAux fuel n := by
  induction fuel with
  | zero =>
    intro n h
    simpa [bitLenAux] using h
  | succ fuel ih =>
    intro n h
    rw [bitLenAux]
    by_cases h0 : n = 0
    · simp [h0]
    · rw [if_neg h0]
      have hhalf : n / 2 < 2 ^ fuel := by
        rw [Nat.div_lt_iff_lt_mul (by norm_num)]
        calc n < 2 ^ (fuel + 1) := h
          _ = 2 ^ fuel * 2 := by rw [pow_succ]
      have := ih (n / 2) hhalf
      rw [pow_succ]
      omega

theorem bitLen_lt (n : Nat) (h : n < 2 ^ 64) : n < 2 ^ bitLen n :=
  bitLenAux_lt 64 n h

theorem rndHalfEven_le (a k c : Nat) (h : a < 2 ^ k * c) :
    rndHalfEven a k ≤ c := by
  have hd : a / 2 ^ k < c := Nat.div_lt_of_lt_mul h
  unfold rndHalfEven
  split
  · omega
  · split
    · omega
    · split <;> omega

/-- Every binary32 pattern the narrowing produces fits in 32 bits; needed so
that writing it as 4 little-endian bytes is lossless. -/

theorem f32Finish_lt (s n : Nat) (q : Int) (b32 : Nat) (hs : s ≤ 1)
    (hn : n < 2 ^ 24) (hq : -149 ≤ q) (h : f32Finish s n q = some b32) :
    b32 < 2 ^ 32 := by
  unfold f32Finish at h
  split at h
  · exact absurd h (by simp)
  · rename_i hq104
    split at h <;> injection h with h <;> subst h
    · omega
    · have h1 : (q + 150).toNat ≤ 254 := by omega
      have h2 : (q + 150).toNat * 2 ^ 23 ≤ 254 * 2 ^ 23 := Nat.mul_le_mul_right _ h1
      omega

theorem f32Carry_lt (s n : Nat) (q : Int) (b32 : Nat) (hs : s ≤ 1)
    (hn : n ≤ 2 ^ 24) (hq : -149 ≤ q) (h : f32Carry s n q = some b32) :
    b32 < 2 ^ 32 := by
  unfold f32Carry at h
  split at h
  · exact f32Finish_lt s n q b32 hs (by omega) hq h
  · exact f32Finish_lt s (n / 2) (q + 1) b32 hs (by omega) (by omega) h

theorem f32RoundAt_le (sig : Nat) (ex q : Int) (hsig : sig < 2 ^ 64)
    (hq : (bitLen sig : Int) - 1 + ex - 23 ≤ q) :
    f32RoundAt sig ex q ≤ 2 ^ 24 := by
  have hble : sig < 2 ^ bitLen sig := bitLen_lt sig hsig
  unfold f32RoundAt
  split
  · rename_i hge
    have hbl24 : bitLen sig + (ex - q).toNat ≤ 24 := by omega
    calc sig * 2 ^ (ex - q).toNat ≤ (2 ^ bitLen sig - 1) * 2 ^ (ex - q).toNat :=
          Nat.mul_le_mul_right _ (by omega)
      _ = 2 ^ bitLen sig * 2 ^ (ex - q).toNat - 1 * 2 ^ (ex - q).toNat := by
          rw [Nat.sub_mul]
      _ = 2 ^ (bitLen sig + (ex - q).toNat) - 2 ^ (ex - q).toNat := by
          rw [pow_add, one_mul]
      _ ≤ 2 ^ 24 := by
          have hm : (2 : Nat) ^ (bitLen sig + (ex - q).toNat) ≤ 2 ^ 24 :=
            Nat.pow_le_pow_right (by norm_num) hbl24
          have h1 : 1 ≤ (2 : Nat) ^ (ex - q).toNat := Nat.one_le_two_pow
          omega
  · rename_i hlt
    apply rndHalfEven_le
    calc sig < 2 ^ bitLen sig := hble
      _ ≤ 2 ^ ((q - ex).toNat + 24) := Nat.pow_le_pow_right (by norm_num) (by omega)
      _ = 2 ^ (q - ex).toNat * 2 ^ 24 := by rw [pow_add]

theorem f64ToF32Sig_lt (s sig : Nat) (ex : Int) (b32 : Nat) (hs : s ≤ 1)
    (hsig : sig < 2 ^ 64) (h : f64ToF32Sig s sig ex = some b32) : b32 < 2 ^ 32 := by
  unfold f64ToF32Sig at h
  exact f32Carry_lt _ _ _ _ hs
    (f32RoundAt_le sig ex _ hsig (le_max_left _ _)) (le_max_right _ _) h

theorem f64ToF32Bits_lt (bits b32 : Nat) (hb : bits < 2 ^ 64)
    (h : f64ToF32Bits bits = some b32) : b32 < 2 ^ 32 := by
  unfold f64ToF32Bits at h
  have hs : bits / 2 ^ 63 ≤ 1 := by omega
  split at h
  · injection h with h
    subst h
    split <;> omega
  · split at h
    · split at h
      · injection h with h
        subst h
        omega
      · exact f64ToF32Sig_lt _ _ _ _ hs (by omega) h
    · exact f64ToF32Sig_lt _ _ _ _ hs (by omega) h

/-! ### UTF-8 lemmas -/

theorem utf8EncodeChar_length_pos (c : Nat) : 0 < (utf8EncodeChar c).length := by
  unfold utf8EncodeChar
  split
  · simp
  · split
    · simp
    · split <;> simp

theorem length_le_utf8Encode_length (s : List Nat) :
    s.length ≤ (utf8Encode s).length := by
  induction s with
  | nil => simp [utf8Encode]
  | cons c s ih =>
    rw [utf8Encode]
    simp only [List.length_append, List.length_cons]
    have := utf8EncodeChar_length_pos c
    omega

theorem utf8DecodeAux_complete : ∀ (fuel : Nat) (s : List Nat) (k : Nat),
    (∀ c ∈ s, scalarOk c) →
    (utf8Encode s).length + k ≤ fuel →
    utf8DecodeAux fuel (utf8Encode s ++ List.replicate k 0) =
      some (s ++ List.replicate k 0) := by
  intro fuel
  induction fuel with
  | zero =>
    intro s k hs hfuel
    have hk : k = 0 := by omega
    have hsl : s.length = 0 := by
      have := length_le_utf8Encode_length s
      omega
    have hs0 : s = [] := List.length_eq_zero.mp hsl
    subst hk
    rw [hs0]
    rfl
  | succ fuel ih =>
    intro s k hs hfuel
    cases s with
    | nil =>
      rw [show utf8Encode [] = [] from rfl] at hfuel ⊢
      rw [List.nil_append]
      cases k with
      | zero => rfl
      | succ k =>
        rw [List.replicate_succ]
        simp only [utf8DecodeAux]
        rw [if_pos (by omega)]
        have hfl : (utf8Encode ([] : List Nat)).length + k ≤ fuel := by
          have h00 : (utf8Encode ([] : List Nat)).length = 0 := rfl
          simp only [List.length_nil] at hfuel
          omega
        have h0 := ih [] k (fun c hc => absurd hc (List.not_mem_nil c)) hfl
        rw [show utf8Encode [] = [] from rfl, List.nil_append] at h0
        rw [h0]
        rfl
    | cons c s' =>
      have hc : scalarOk c := hs c (List.mem_cons_self c s')
      have hs' : ∀ x ∈ s', scalarOk x := fun x hx => hs x (List.mem_cons_of_mem c hx)
      have hassoc : utf8Encode (c :: s') ++ List.replicate k 0 =
          utf8EncodeChar c ++ (utf8Encode s' ++ List.replicate k 0) := by
        rw [utf8Encode, List.append_assoc]
      have hfuel' : (utf8Encode s').length + k ≤ fuel := by
        rw [utf8Encode] at hfuel
        simp only [List.length_append] at hfuel
        have := utf8EncodeChar_length_pos c
        omega
      have hrec := ih s' k hs' hfuel'
      rw [hassoc]
      by_cases h1 : c < 0x80
      · rw [show utf8EncodeChar c = [c] from by unfold utf8EncodeChar; rw [if_pos h1]]
        rw [List.cons_append, List.nil_append]
        simp only [utf8DecodeAux]
        rw [if_pos h1, hrec]
        rfl
      · by_cases h2 : c < 0x800
        · rw [show utf8EncodeChar c = [0xC0 + c / 64, 0x80 + c % 64] from by
            unfold utf8EncodeChar; rw [if_neg h1, if_pos h2]]
          rw [List.cons_append, List.cons_append, List.nil_append]
          simp only [utf8DecodeAux]
          rw [if_neg (by omega), if_neg (by omega), if_pos (by omega)]
          rw [if_pos ⟨by omega, by omega⟩, hrec]
          show some _ = _
          rw [Option.some_inj, List.cons_append, List.cons.injEq]
          exact ⟨by omega, rfl⟩
        · by_cases h3 : c < 0x10000
          · rw [show utf8EncodeChar c =
                [0xE0 + c / 4096, 0x80 + c / 64 % 64, 0x80 + c % 64] from by
              unfold utf8EncodeChar; rw [if_neg h1, if_neg h2, if_pos h3]]
            rw [List.cons_append, List.cons_append, List.cons_append, List.nil_append]
            simp only [utf8DecodeAux]
            rw [if_neg (by omega), if_neg (by omega), if_neg (by omega), if_pos (by omega)]
            rcases hc with ⟨hc1, hc2⟩
            rw [if_pos ⟨⟨by omega, by omega⟩, ⟨by omega, by omega⟩,
              by intro he; omega, by intro he; omega⟩, hrec]
            show some _ = _
            rw [Option.some_inj, List.cons_append, List.cons.injEq]
            exact ⟨by omega, rfl⟩
          · rcases hc with ⟨hc1, hc2⟩
            rw [show utf8EncodeChar c =
                [0xF0 + c / 0x40000, 0x80 + c / 4096 % 64, 0x80 + c / 64 % 64,
                  0x80 + c % 64] from by
              unfold utf8EncodeChar; rw [if_neg h1, if_neg h2, if_neg h3]]
            rw [List.cons_append, List.cons_append, List.cons_append, List.cons_append,
              List.nil_append]
            simp only [utf8DecodeAux]
            rw [if_neg (by omega), if_neg (by omega), if_neg (by omega),
              if_neg (by omega), if_pos (by omega)]
            rw [if_pos ⟨⟨by omega, by omega⟩, ⟨by omega, by omega⟩, ⟨by omega, by omega⟩,
              by intro he; omega, by intro he; omega⟩, hrec]
            show some _ = _
            rw [Option.some_inj, List.cons_append, List.cons.injEq]
            exact ⟨by omega, rfl⟩

theorem utf8Decode_encode_pad (s : List Nat) (k : Nat) (hs : ∀ c ∈ s, scalarOk c) :
    utf8Decode (utf8Encode s ++ List.replicate k 0) = some (s ++ List.replicate k 0) := by
  unfold utf8Decode
  apply utf8DecodeAux_complete _ _ _ hs
  simp

/-- Helper: decoding inverts encoding for a typed, validated, encodable
value, up to `BaseField.decoded`. -/
theorem BaseField.from_to_bytes_aux (f : BaseField) (v : Value) (b : List Nat)
    (ht : f.typed v) (_hval : f.validate v = .ok ())
    (henc : f.to_bytes v = .ok b) :
    f.from_bytes b = .ok (f.decoded v) := by
  cases f with
  | varchar n =>
    cases v with
    | str s =>
      simp only [BaseField.to_bytes] at henc
      by_cases hs : ∀ c ∈ s, scalarOk c
      · rw [if_pos hs] at henc
        injection henc with henc
        subst henc
        simp only [BaseField.from_bytes]
        rw [utf8Decode_encode_pad s _ hs]
        rfl
      · rw [if_neg hs] at henc
        exact absurd henc (by simp)
    | bytes bb => exact ht.elim
    | int i => exact ht.elim
    | bool bb => exact ht.elim
    | float bits => exact ht.elim
  | bytes n =>
    cases v with
    | bytes bb =>
      injection henc with henc
      subst henc
      rfl
    | str s => exact ht.elim
    | int i => exact ht.elim
    | bool bb => exact ht.elim
    | float bits => exact ht.elim
  | uint8 =>
    cases v with
    | int i => exact uintFromBytes_uintToBytes 1 i b henc
    | str s => exact ht.elim
    | bytes bb => exact ht.elim
    | bool bb => exact ht.elim
    | float bits => exact ht.elim
  | uint16 =>
    cases v with
    | int i => exact uintFromBytes_uintToBytes 2 i b henc
    | str s => exact ht.elim
    | bytes bb => exact ht.elim
    | bool bb => exact ht.elim
    | float bits => exact ht.elim
  | uint32 =>
    cases v with
    | int i => exact uintFromBytes_uintToBytes 4 i b henc
    | str s => exact ht.elim
    | bytes bb => exact ht.elim
    | bool bb => exact ht.elim
    | float bits => exact ht.elim
  | uint64 =>
    cases v with
    | int i => exact uintFromBytes_uintToBytes 8 i b henc
    | str s => exact ht.elim
    | bytes bb => exact ht.elim
    | bool bb => exact ht.elim
    | float bits => exact ht.elim
  | int8 =>
    cases v with
    | int i => exact sintFromBytes_sintToBytes 1 (by norm_num) i b henc
    | str s => exact ht.elim
    | bytes bb => exact ht.elim
    | bool bb => exact ht.elim
    | float bits => exact ht.elim
  | int16 =>
    cases v with
    | int i => exact sintFromBytes_sintToBytes 2 (by norm_num) i b henc
    | str s => exact ht.elim
    | bytes bb => exact ht.elim
    | bool bb => exact ht.elim
    | float bits => exact ht.elim
  | int32 =>
    cases v with
    | int i => exact sintFromBytes_sintToBytes 4 (by norm_num) i b henc
    | str s => exact ht.elim
    | bytes bb => exact ht.elim
    | bool bb => exact ht.elim
    | float bits => exact ht.elim
  | int64 =>
    cases v with
    | int i => exact sintFromBytes_sintToBytes 8 (by norm_num) i b henc
    | str s => exact ht.elim
    | bytes bb => exact ht.elim
    | bool bb => exact ht.elim
    | float bits => exact ht.elim
  | boolean =>
    cases v with
    | bool bb =>
      injection henc with henc
      subst henc
      cases bb <;> rfl
    | str s => exact ht.elim
    | bytes bb => exact ht.elim
    | int i => exact ht.elim
    | float bits => exact ht.elim
  | float32 =>
    cases v with
    | float bits =>
      simp only [BaseField.to_bytes] at henc
      cases hcv : f64ToF32Bits bits with
      | none =>
        rw [hcv] at henc
        exact absurd henc (by simp)
      | some b32 =>
        rw [hcv] at henc
        injection henc with henc
        subst henc
        have hb32 : b32 < 2 ^ 32 := f64ToF32Bits_lt bits b32 ht hcv
        simp only [BaseField.from_bytes]
        rw [if_pos (natToBytesLE_length 4 b32)]
        rw [bytesToNatLE_natToBytesLE 4 b32 (by omega)]
        simp only [BaseField.decoded, hcv, Option.getD_some]
    | str s => exact ht.elim
    | bytes bb => exact ht.elim
    | int i => exact ht.elim
    | bool bb => exact ht.elim
  | float64 =>
    cases v with
    | float bits =>
      injection henc with henc
      subst henc
      simp only [BaseField.from_bytes]
      rw [if_pos (natToBytesLE_length 8 bits)]
      have ht2 : bits < 2 ^ 64 := ht
      rw [bytesToNatLE_natToBytesLE 8 bits (by omega)]
      rfl
    | str s => exact ht.elim
    | bytes bb => exact ht.elim
    | int i => exact ht.elim
    | bool bb => exact ht.elim

/-- C9 (code bug): `Varchar.validate` counts code points but `to_bytes`
counts UTF-8 bytes.  The two-character string `"éé"` (code point 233 twice)
passes validation for `Varchar(2)` yet encodes to 4 bytes, so the encoded
field (and the whole record) is longer than the declared width, and `insert`
leaves the file 12 bytes long with a 10-byte block width — the file length
stops being a multiple of the block width. -/
theorem varchar_encode_overflows_width :
    BaseField.validate (.varchar 2) (.str [233, 233]) = .ok () ∧
    BaseField.to_bytes (.varchar 2) (.str [233, 233]) = .ok [195, 169, 195, 169] ∧
    (BaseField.varchar 2).sizeof = 2 ∧
    Struct.block_size [("id", .uint64), ("name", .varchar 2)] = 10 ∧
    Struct.as_bytes [("id", .uint64), ("name", .varchar 2)] [.int 0, .str [233, 233]] =
      .ok [0, 0, 0, 0, 0, 0, 0, 0, 195, 169, 195, 169] ∧
    Struct.insert [("id", .uint64), ("name", .varchar 2)] 0 [.int 0, .str [233, 233]] [] =
      .ok (1, [.int 1, .str [233, 233]], [0, 0, 0, 0, 0, 0, 0, 1, 195, 169, 195, 169]) ∧
    ([0, 0, 0, 0, 0, 0, 0, 1, 195, 169, 195, 169] : List Nat).length %
      Struct.block_size [("id", .uint64), ("name", .varchar 2)] ≠ 0 := by
  refine ⟨rfl, rfl, rfl, rfl, rfl, rfl, by decide⟩

/-- C5 counterexample: a schema whose `id` field is the `Uint8` codec — not
the unsigned-64-bit codec the claim requires — passes the definition-time
check, which only looks for the attribute name. -/
theorem id_codec_not_checked :
    initSubclassCheck [("id", BaseField.uint8)] = .ok () := rfl

/-- C5 amended: the definition-time check accepts a schema iff some field is
named `id`; the codec and the default of that field are not checked, and a
schema with no `id` field is rejected with the no-field schema error. -/
theorem initSubclassCheck_iff (schema : Schema) :
    initSubclassCheck schema = .ok () ↔ "id" ∈ schema.map Prod.fst := by
  unfold initSubclassCheck
  split
  · rename_i h
    exact ⟨fun _ => h, fun _ => rfl⟩
  · rename_i h
    exact ⟨fun hcontr => by simp at hcontr, fun hmem => absurd hmem h⟩

/-- C4 counterexample: the block-level `get` has no bounds check; on an empty
store, reading index 5 returns the empty byte string rather than failing
(the source method has no failure path, so its embedding is total). -/
theorem get_out_of_range_returns_value :
    Table.size 8 [] = 0 ∧ Table.get 8 [] 5 = [] := ⟨rfl, rfl⟩

/-- C4 amended: for `idx ≥ size()` the block-level `get` does not fail and
does not clamp; it returns the bytes between `idx * block_size` and the end
of the file — always fewer than one full block. -/
theorem get_out_of_range_short (bs : Nat) (file : List Nat) (idx : Nat)
    (hbs : 0 < bs) (hidx : Table.size bs file ≤ idx) :
    (Table.get bs file idx).length < bs := by
  have hs : bs * Table.size bs file + file.length % bs = file.length :=
    Nat.div_add_mod _ _
  have hmod : file.length % bs < bs := Nat.mod_lt _ hbs
  have hmul : bs * Table.size bs file ≤ bs * idx := Nat.mul_le_mul_left _ hidx
  have hco : bs * idx = idx * bs := Nat.mul_comm _ _
  simp only [Table.get, List.length_take, List.length_drop]
  omega

/-- Witness for the amended C4: one block past the end of a 12-byte file
with 8-byte blocks holds only 4 bytes. -/
theorem get_out_of_range_short_witness :
    (Table.get 8 (List.replicate 12 7) 1).length < 8 :=
  get_out_of_range_short 8 (List.replicate 12 7) 1 (by decide) (by decide)

/-! ### Write/read lemmas for the block store -/

theorem exbind_ok {α β : Type} (a : α) (f : α → Except Err β) :
    ((Except.ok a : Except Err α) >>= f) = f a := rfl

theorem exbind_err {α β : Type} (e : Err) (f : α → Except Err β) :
    ((Except.error e : Except Err α) >>= f) = .error e := rfl

theorem writeAt_eq_of_le (file b : List Nat) (p : Nat) (hp : p ≤ file.length) :
    writeAt file p b = file.take p ++ b ++ file.drop (p + b.length) := by
  unfold writeAt
  rw [Nat.sub_eq_zero_of_le hp, List.replicate_zero, List.append_nil]

theorem writeAt_length (file b : List Nat) (p : Nat) (hp : p ≤ file.length) :
    (writeAt file p b).length = max file.length (p + b.length) := by
  rw [writeAt_eq_of_le _ _ _ hp]
  simp only [List.length_append, List.length_take, List.length_drop]
  omega

theorem Table.length_update (bs : Nat) (file b : List Nat) (idx : Nat)
    (hb : b.length = bs) (hin : idx * bs + bs ≤ file.length) :
    (Table.update bs file b idx).length = file.length := by
  unfold Table.update
  rw [writeAt_length _ _ _ (by omega), hb]
  omega

theorem Table.size_update (bs : Nat) (file b : List Nat) (idx : Nat)
    (hb : b.length = bs) (hin : idx * bs + bs ≤ file.length) :
    Table.size bs (Table.update bs file b idx) = Table.size bs file := by
  unfold Table.size
  rw [Table.length_update bs file b idx hb hin]

theorem Table.get_update_self (bs : Nat) (file b : List Nat) (idx : Nat)
    (hb : b.length = bs) (hin : idx * bs + bs ≤ file.length) :
    Table.get bs (Table.update bs file b idx) idx = b := by
  unfold Table.get Table.update
  rw [writeAt_eq_of_le _ _ _ (by omega), List.append_assoc]
  rw [List.drop_left' (by simp [List.length_take]; omega)]
  exact List.take_left' hb

theorem Table.get_update_ne (bs : Nat) (file b : List Nat) (idx j : Nat)
    (hb : b.length = bs) (hin : idx * bs + bs ≤ file.length) (hj : j ≠ idx) :
    Table.get bs (Table.update bs file b idx) j = Table.get bs file j := by
  unfold Table.get Table.update
  rw [writeAt_eq_of_le _ _ _ (by omega), List.append_assoc]
  have hA : (file.take (idx * bs)).length = idx * bs := by
    simp [List.length_take]
    omega
  rcases Nat.lt_or_ge j idx with hlt | hge
  · have hmul : (j + 1) * bs ≤ idx * bs := Nat.mul_le_mul_right bs (by omega)
    have hn : j * bs + bs ≤ idx * bs := by
      have hx : (j + 1) * bs = j * bs + bs := by ring
      omega
    rw [List.drop_append_eq_append_drop, hA,
      Nat.sub_eq_zero_of_le (show j * bs ≤ idx * bs by omega), List.drop_zero]
    rw [List.take_append_eq_append_take, List.length_drop, hA]
    rw [Nat.sub_eq_zero_of_le (show bs ≤ idx * bs - j * bs by omega),
      List.take_zero, List.append_nil]
    rw [List.drop_take, List.take_take, Nat.min_eq_left (by omega)]
  · have hne : idx < j := by omega
    have hmul : (idx + 1) * bs ≤ j * bs := Nat.mul_le_mul_right bs (by omega)
    have hn : idx * bs + bs ≤ j * bs := by
      have hx : (idx + 1) * bs = idx * bs + bs := by ring
      omega
    rw [List.drop_append_eq_append_drop, hA,
      List.drop_eq_nil_of_le (by rw [hA]; omega), List.nil_append]
    rw [List.drop_append_eq_append_drop, hb,
      List.drop_eq_nil_of_le (by rw [hb]; omega), List.nil_append]
    rw [List.drop_drop]
    rw [show idx * bs + bs + (j * bs - idx * bs - bs) = j * bs by omega]


/-! ### Well-formed field values -/

theorem BaseField.wf_typed (f : BaseField) (v : Value) (h : f.wf v) : f.typed v := by
  cases f <;> cases v <;> first | exact trivial | exact h.1 | exact h

theorem BaseField.wf_validate (f : BaseField) (v : Value) (h : f.wf v) :
    f.validate v = .ok () := by
  cases f with
  | varchar n =>
    cases v with
    | str s =>
      rcases h with ⟨hsc, hlen, hencl⟩
      simp only [BaseField.validate, pyLen, exbind_ok]
      rw [if_neg (by omega)]
    | bytes b => exact h.elim
    | int i => exact h.elim
    | bool b => exact h.elim
    | float bits => exact h.elim
  | bytes n =>
    cases v with
    | bytes b =>
      simp only [BaseField.validate, pyLen, exbind_ok]
      rw [if_pos (show b.length = n from h)]
    | str s => exact h.elim
    | int i => exact h.elim
    | bool b => exact h.elim
    | float bits => exact h.elim
  | uint8 => rfl
  | uint16 => rfl
  | uint32 => rfl
  | uint64 => rfl
  | int8 => rfl
  | int16 => rfl
  | int32 => rfl
  | int64 => rfl
  | boolean => rfl
  | float32 => rfl
  | float64 => rfl

theorem BaseField.wf_validate_decoded (f : BaseField) (v : Value) (h : f.wf v) :
    f.validate (f.decoded v) = .ok () := by
  cases f with
  | varchar n =>
    cases v with
    | str s =>
      rcases h with ⟨hsc, hlen, hencl⟩
      have hse : s.length ≤ (utf8Encode s).length := length_le_utf8Encode_length s
      simp only [BaseField.decoded, BaseField.validate, pyLen, exbind_ok]
      rw [if_neg (by simp only [List.length_append, List.length_replicate]; omega)]
    | bytes b => exact h.elim
    | int i => exact h.elim
    | bool b => exact h.elim
    | float bits => exact h.elim
  | bytes n =>
    cases v with
    | bytes b =>
      simp only [BaseField.decoded, BaseField.validate, pyLen, exbind_ok]
      rw [if_pos (show b.length = n from h)]
    | str s => exact h.elim
    | int i => exact h.elim
    | bool b => exact h.elim
    | float bits => exact h.elim
  | uint8 => rfl
  | uint16 => rfl
  | uint32 => rfl
  | uint64 => rfl
  | int8 => rfl
  | int16 => rfl
  | int32 => rfl
  | int64 => rfl
  | boolean => rfl
  | float32 => rfl
  | float64 => rfl

theorem BaseField.wf_to_bytes (f : BaseField) (v : Value) (h : f.wf v) :
    ∃ c, f.to_bytes v = .ok c ∧ c.length = f.sizeof := by
  cases f with
  | varchar n =>
    cases v with
    | str s =>
      rcases h with ⟨hsc, hlen, hencl⟩
      refine ⟨utf8Encode s ++ List.replicate (n - (utf8Encode s).length) 0, ?_, ?_⟩
      · simp only [BaseField.to_bytes]
        rw [if_pos hsc]
      · simp only [List.length_append, List.length_replicate]
        show _ = n
        omega
    | bytes b => exact h.elim
    | int i => exact h.elim
    | bool b => exact h.elim
    | float bits => exact h.elim
  | bytes n =>
    cases v with
    | bytes b => exact ⟨b, rfl, h⟩
    | str s => exact h.elim
    | int i => exact h.elim
    | bool b => exact h.elim
    | float bits => exact h.elim
  | uint8 =>
    cases v with
    | int i =>
      refine ⟨natToBytesBE 1 i.toNat, ?_, natToBytesBE_length 1 _⟩
      show uintToBytes 1 i = _
      unfold uintToBytes
      rw [if_pos (show 0 ≤ i ∧ i < 2 ^ (8 * 1) from h)]
    | str s => exact h.elim
    | bytes b => exact h.elim
    | bool b => exact h.elim
    | float bits => exact h.elim
  | uint16 =>
    cases v with
    | int i =>
      refine ⟨natToBytesBE 2 i.toNat, ?_, natToBytesBE_length 2 _⟩
      show uintToBytes 2 i = _
      unfold uintToBytes
      rw [if_pos (show 0 ≤ i ∧ i < 2 ^ (8 * 2) from h)]
    | str s => exact h.elim
    | bytes b => exact h.elim
    | bool b => exact h.elim
    | float bits => exact h.elim
  | uint32 =>
    cases v with
    | int i =>
      refine ⟨natToBytesBE 4 i.toNat, ?_, natToBytesBE_length 4 _⟩
      show uintToBytes 4 i = _
      unfold uintToBytes
      rw [if_pos (show 0 ≤ i ∧ i < 2 ^ (8 * 4) from h)]
    | str s => exact h.elim
    | bytes b => exact h.elim
    | bool b => exact h.elim
    | float bits => exact h.elim
  | uint64 =>
    cases v with
    | int i =>
      refine ⟨natToBytesBE 8 i.toNat, ?_, natToBytesBE_length 8 _⟩
      show uintToBytes 8 i = _
      unfold uintToBytes
      rw [if_pos (show 0 ≤ i ∧ i < 2 ^ (8 * 8) from h)]
    | str s => exact h.elim
    | bytes b => exact h.elim
    | bool b => exact h.elim
    | float bits => exact h.elim
  | int8 =>
    cases v with
    | int i =>
      refine ⟨natToBytesBE 1 (i % 2 ^ (8 * 1)).toNat, ?_, natToBytesBE_length 1 _⟩
      show sintToBytes 1 i = _
      unfold sintToBytes
      rw [if_pos (show -2 ^ (8 * 1 - 1) ≤ i ∧ i < 2 ^ (8 * 1 - 1) from h)]
    | str s => exact h.elim
    | bytes b => exact h.elim
    | bool b => exact h.elim
    | float bits => exact h.elim
  | int16 =>
    cases v with
    | int i =>
      refine ⟨natToBytesBE 2 (i % 2 ^ (8 * 2)).toNat, ?_, natToBytesBE_length 2 _⟩
      show sintToBytes 2 i = _
      unfold sintToBytes
      rw [if_pos (show -2 ^ (8 * 2 - 1) ≤ i ∧ i < 2 ^ (8 * 2 - 1) from h)]
    | str s => exact h.elim
    | bytes b => exact h.elim
    | bool b => exact h.elim
    | float bits => exact h.elim
  | int32 =>
    cases v with
    | int i =>
      refine ⟨natToBytesBE 4 (i % 2 ^ (8 * 4)).toNat, ?_, natToBytesBE_length 4 _⟩
      show sintToBytes 4 i = _
      unfold sintToBytes
      rw [if_pos (show -2 ^ (8 * 4 - 1) ≤ i ∧ i < 2 ^ (8 * 4 - 1) from h)]
    | str s => exact h.elim
    | bytes b => exact h.elim
    | bool b => exact h.elim
    | float bits => exact h.elim
  | int64 =>
    cases v with
    | int i =>
      refine ⟨natToBytesBE 8 (i % 2 ^ (8 * 8)).toNat, ?_, natToBytesBE_length 8 _⟩
      show sintToBytes 8 i = _
      unfold sintToBytes
      rw [if_pos (show -2 ^ (8 * 8 - 1) ≤ i ∧ i < 2 ^ (8 * 8 - 1) from h)]
    | str s => exact h.elim
    | bytes b => exact h.elim
    | bool b => exact h.elim
    | float bits => exact h.elim
  | boolean =>
    cases v with
    | bool b => exact ⟨[if (Value.bool b).truthy then 1 else 0], rfl, rfl⟩
    | str s => exact h.elim
    | bytes b => exact h.elim
    | int i => exact h.elim
    | float bits => exact h.elim
  | float32 =>
    cases v with
    | float bits =>
      obtain ⟨b32, hb32⟩ := Option.isSome_iff_exists.mp h.2
      refine ⟨natToBytesLE 4 b32, ?_, natToBytesLE_length 4 _⟩
      simp only [BaseField.to_bytes, hb32]
    | str s => exact h.elim
    | bytes b => exact h.elim
    | int i => exact h.elim
    | bool b => exact h.elim
  | float64 =>
    cases v with
    | float bits => exact ⟨natToBytesLE 8 bits, rfl, natToBytesLE_length 8 _⟩
    | str s => exact h.elim
    | bytes b => exact h.elim
    | int i => exact h.elim
    | bool b => exact h.elim


/-! ### Well-formed records -/

theorem validate_uint64 (v : Value) : BaseField.validate .uint64 v = .ok () := rfl

theorem Struct.wf_as_bytes : ∀ (schema : Schema) (r : Record),
    Struct.wfRecord schema r →
    ∃ b, Struct.as_bytes schema r = .ok b ∧ b.length = Struct.block_size schema := by
  intro schema
  induction schema with
  | nil =>
    intro r h
    cases r with
    | nil => exact ⟨[], rfl, rfl⟩
    | cons v vs => exact h.elim
  | cons nf fs ih =>
    intro r h
    cases r with
    | nil => exact h.elim
    | cons v vs =>
      obtain ⟨nm, f⟩ := nf
      rcases h with ⟨hv, hr⟩
      obtain ⟨c, hc, hclen⟩ := BaseField.wf_to_bytes f v hv
      obtain ⟨rest, hrest, hrlen⟩ := ih vs hr
      refine ⟨c ++ rest, ?_, ?_⟩
      · simp only [Struct.as_bytes, hc, hrest, exbind_ok]
      · simp only [List.length_append, hclen, hrlen, Struct.block_size,
          List.map_cons, List.sum_cons]

theorem Struct.wfRecord_set : ∀ (schema : Schema) (r : Record) (k : Nat) (nm : String)
    (f : BaseField) (v2 : Value),
    Struct.wfRecord schema r → schema.get? k = some (nm, f) → f.wf v2 →
    Struct.wfRecord schema (r.set k v2) := by
  intro schema
  induction schema with
  | nil =>
    intro r k nm f v2 h hk hv2
    simp at hk
  | cons nf fs ih =>
    intro r k nm f v2 h hk hv2
    cases r with
    | nil => exact h.elim
    | cons v vs =>
      obtain ⟨nm0, f0⟩ := nf
      rcases h with ⟨hv, hr⟩
      cases k with
      | zero =>
        simp only [List.get?_cons_zero, Option.some_inj, Prod.mk.injEq] at hk
        exact ⟨by rw [hk.2]; exact hv2, hr⟩
      | succ k =>
        simp only [List.get?_cons_succ] at hk
        exact ⟨hv, ih vs k nm f v2 hr hk hv2⟩

theorem Struct.sizeof_le_block_size : ∀ (schema : Schema) (k : Nat) (nm : String)
    (f : BaseField), schema.get? k = some (nm, f) →
    f.sizeof ≤ Struct.block_size schema := by
  intro schema
  induction schema with
  | nil =>
    intro k nm f hk
    simp at hk
  | cons nf fs ih =>
    intro k nm f hk
    obtain ⟨nm0, f0⟩ := nf
    have hbs : Struct.block_size ((nm0, f0) :: fs) = f0.sizeof + Struct.block_size fs := by
      simp [Struct.block_size]
    cases k with
    | zero =>
      simp only [List.get?_cons_zero, Option.some_inj, Prod.mk.injEq] at hk
      rw [hbs, ← hk.2]
      omega
    | succ k =>
      simp only [List.get?_cons_succ] at hk
      have := ih k nm f hk
      omega

theorem Struct.decodeFields_as_bytes : ∀ (schema : Schema) (r : Record)
    (b tail : List Nat), Struct.wfRecord schema r →
    Struct.as_bytes schema r = .ok b →
    Struct.decodeFields schema (b ++ tail) = .ok (Struct.decodedRecord schema r) := by
  intro schema
  induction schema with
  | nil =>
    intro r b tail h henc
    cases r with
    | nil =>
      injection henc with henc
      subst henc
      rfl
    | cons v vs => exact h.elim
  | cons nf fs ih =>
    intro r b tail h henc
    cases r with
    | nil => exact h.elim
    | cons v vs =>
      obtain ⟨nm, f⟩ := nf
      rcases h with ⟨hv, hr⟩
      obtain ⟨c, hc, hclen⟩ := BaseField.wf_to_bytes f v hv
      obtain ⟨rest, hrest, hrlen⟩ := Struct.wf_as_bytes fs vs hr
      rw [Struct.as_bytes, hc, exbind_ok, hrest, exbind_ok] at henc
      injection henc with henc
      subst henc
      have hdec : f.from_bytes c = .ok (f.decoded v) :=
        BaseField.from_to_bytes_aux f v c (BaseField.wf_typed f v hv)
          (BaseField.wf_validate f v hv) hc
      simp only [List.append_assoc, Struct.decodeFields, List.take_left' hclen,
        List.drop_left' hclen, hdec, exbind_ok, ih vs rest tail hr hrest]
      rfl

theorem Struct.validateRecord_decoded : ∀ (schema : Schema) (r : Record),
    Struct.wfRecord schema r →
    Struct.validateRecord schema (Struct.decodedRecord schema r) = .ok () := by
  intro schema
  induction schema with
  | nil =>
    intro r h
    cases r with
    | nil => rfl
    | cons v vs => exact h.elim
  | cons nf fs ih =>
    intro r h
    cases r with
    | nil => exact h.elim
    | cons v vs =>
      obtain ⟨nm, f⟩ := nf
      rcases h with ⟨hv, hr⟩
      show Struct.validateRecord ((nm, f) :: fs)
        (f.decoded v :: Struct.decodedRecord fs vs) = .ok ()
      rw [Struct.validateRecord, BaseField.wf_validate_decoded f v hv, exbind_ok]
      exact ih vs hr

theorem Struct.from_bytes_as_bytes (schema : Schema) (r : Record) (b tail : List Nat)
    (h : Struct.wfRecord schema r) (henc : Struct.as_bytes schema r = .ok b) :
    Struct.from_bytes schema (b ++ tail) = .ok (Struct.decodedRecord schema r) := by
  unfold Struct.from_bytes
  rw [Struct.decodeFields_as_bytes schema r b tail h henc, exbind_ok,
    Struct.validateRecord_decoded schema r h, exbind_ok]


/-! ### Claim theorems for the record CRUD layer -/

/-- C8: when the record's current id resolves to a valid index
(`1 ≤ id ≤ size`), `update` succeeds, never changes the file length or the
store size, rewrites the block at index `id - 1` with the record's encoding,
and leaves every other block index byte-for-byte unchanged. -/
theorem update_frame (schema : Schema) (idPos : Nat) (r : Record) (file : List Nat)
    (bs : Nat) (i : Int) (b : List Nat)
    (hbs : bs = Struct.block_size schema)
    (hid : r.get? idPos = some (.int i))
    (henc : Struct.as_bytes schema r = .ok b)
    (hb : b.length = bs)
    (h1 : 1 ≤ i) (h2 : i ≤ (Table.size bs file : Int)) :
    Struct.update schema idPos r file = .ok (Table.update bs file b (i - 1).toNat) ∧
    (Table.update bs file b (i - 1).toNat).length = file.length ∧
    Table.size bs (Table.update bs file b (i - 1).toNat) = Table.size bs file ∧
    Table.get bs (Table.update bs file b (i - 1).toNat) (i - 1).toNat = b ∧
    ∀ j, j ≠ (i - 1).toNat →
      Table.get bs (Table.update bs file b (i - 1).toNat) j = Table.get bs file j := by
  subst hbs
  set bs := Struct.block_size schema with hbs
  have hsz1 : 1 ≤ Table.size bs file := by omega
  have hbs0 : 0 < bs := by
    rcases Nat.eq_zero_or_pos bs with h0 | h0
    · exfalso
      have hz : Table.size bs file = 0 := by
        unfold Table.size
        rw [h0]
        exact Nat.div_zero _
      omega
    · exact h0
  have hidx1 : (i - 1).toNat + 1 ≤ Table.size bs file := by omega
  have hmul : ((i - 1).toNat + 1) * bs ≤ Table.size bs file * bs :=
    Nat.mul_le_mul_right bs hidx1
  have hsz2 : Table.size bs file * bs ≤ file.length := by
    unfold Table.size
    exact Nat.div_mul_le_self _ _
  have hin : (i - 1).toNat * bs + bs ≤ file.length := by
    have hx : ((i - 1).toNat + 1) * bs = (i - 1).toNat * bs + bs := by ring
    omega
  have hcond : 0 < i ∧ i ≤ ((Table.size bs file : Nat) : Int) := ⟨by omega, h2⟩
  have hupd : Struct.update schema idPos r file =
      .ok (Table.update bs file b (i - 1).toNat) := by
    simp only [Struct.update, Struct.getId, hid, exbind_ok, Value.asCmpInt,
      Struct.get_index_by_id, ← hbs, if_pos hcond, henc]
  exact ⟨hupd, Table.length_update bs file b _ hb hin,
    Table.size_update bs file b _ hb hin,
    Table.get_update_self bs file b _ hb hin,
    fun j hj => Table.get_update_ne bs file b _ j hb hin hj⟩

/-- Witness for C8: a one-block store, updating the record with id 1. -/
theorem update_frame_witness :
    Struct.update [("id", BaseField.uint64)] 0 [Value.int 1] (natToBytesBE 8 9) =
      .ok (Table.update 8 (natToBytesBE 8 9) (natToBytesBE 8 1) 0) ∧
    (Table.update 8 (natToBytesBE 8 9) (natToBytesBE 8 1) 0).length =
      (natToBytesBE 8 9).length ∧
    Table.size 8 (Table.update 8 (natToBytesBE 8 9) (natToBytesBE 8 1) 0) =
      Table.size 8 (natToBytesBE 8 9) ∧
    Table.get 8 (Table.update 8 (natToBytesBE 8 9) (natToBytesBE 8 1) 0) 0 =
      natToBytesBE 8 1 ∧
    ∀ j, j ≠ 0 →
      Table.get 8 (Table.update 8 (natToBytesBE 8 9) (natToBytesBE 8 1) 0) j =
        Table.get 8 (natToBytesBE 8 9) j :=
  update_frame [("id", BaseField.uint64)] 0 [Value.int 1] (natToBytesBE 8 9) 8 1
    (natToBytesBE 8 1) rfl rfl rfl rfl (by decide) (by decide)


/-- C2: on a bound schema whose `id` field is the `Uint64` codec, inserting a
well-formed record whose id is 0 succeeds: with `s` the store size before the
call, it returns `s + 1`, sets the in-memory record's id to `s + 1`, grows
the store by exactly one block, and the block at index `s` is the encoding of
the record including the assigned id. -/
theorem insert_spec (schema : Schema) (idPos : Nat) (r : Record) (file : List Nat)
    (bs : Nat) (s : Nat)
    (hbs : bs = Struct.block_size schema)
    (hs : s = Table.size bs file)
    (hschema : schema.get? idPos = some ("id", BaseField.uint64))
    (hid : r.get? idPos = some (.int 0))
    (hwf : Struct.wfRecord schema r)
    (hfit : (s : Int) + 1 < 2 ^ 64) :
    ∃ b1, Struct.as_bytes schema (r.set idPos (.int ((s : Int) + 1))) = .ok b1 ∧
      b1.length = bs ∧
      Struct.insert schema idPos r file =
        .ok ((s : Int) + 1, r.set idPos (.int ((s : Int) + 1)),
          file.take (s * bs) ++ b1) ∧
      Table.size bs (file.take (s * bs) ++ b1) = s + 1 ∧
      Table.get bs (file.take (s * bs) ++ b1) s = b1 := by
  subst hbs
  subst hs
  set bs := Struct.block_size schema with hbs
  set s := Table.size bs file with hs
  obtain ⟨b0, henc0, hlen0⟩ := Struct.wf_as_bytes schema r hwf
  have hidwf : BaseField.wf .uint64 (.int ((s : Int) + 1)) :=
    ⟨by positivity, hfit⟩
  have hwfr1 := Struct.wfRecord_set schema r idPos "id" .uint64 _ hwf hschema hidwf
  obtain ⟨b1, henc1, hlen1⟩ := Struct.wf_as_bytes schema _ hwfr1
  have h8 : 8 ≤ bs :=
    Struct.sizeof_le_block_size schema idPos "id" .uint64 hschema
  have hbs0 : 0 < bs := by omega
  have hple : s * bs ≤ file.length := by
    rw [hs]
    unfold Table.size
    exact Nat.div_mul_le_self _ _
  have hdm : bs * s + file.length % bs = file.length := by
    rw [hs]
    exact Nat.div_add_mod _ _
  have hmod : file.length % bs < bs := Nat.mod_lt _ hbs0
  have hcomm : bs * s = s * bs := Nat.mul_comm _ _
  have hlt : file.length < s * bs + bs := by omega
  have hfile1 : writeAt file (s * bs) b0 = file.take (s * bs) ++ b0 := by
    rw [writeAt_eq_of_le _ _ _ hple, hlen0, ← hbs,
      List.drop_eq_nil_of_le (by omega), List.append_nil]
  have htklen : (file.take (s * bs)).length = s * bs := by
    simp only [List.length_take]
    omega
  have hlen1' : (file.take (s * bs) ++ b1).length = s * bs + bs := by
    simp only [List.length_append, htklen, hlen1, ← hbs]
  have hfile2 : Table.update bs (file.take (s * bs) ++ b0) b1 s =
      file.take (s * bs) ++ b1 := by
    unfold Table.update
    have hl01 : (file.take (s * bs) ++ b0).length = s * bs + bs := by
      simp only [List.length_append, htklen, hlen0, ← hbs]
    rw [writeAt_eq_of_le _ _ _ (by omega)]
    rw [List.take_append_eq_append_take, List.take_take, Nat.min_self, htklen,
      Nat.sub_self, List.take_zero, List.append_nil]
    rw [show s * bs + b1.length = (file.take (s * bs) ++ b0).length by
      rw [hl01, hlen1, ← hbs]]
    rw [List.drop_length, List.append_nil]
  have hins : Struct.insert schema idPos r file =
      .ok ((s : Int) + 1, r.set idPos (.int ((s : Int) + 1)),
        file.take (s * bs) ++ b1) := by
    simp only [Struct.insert, Struct.getId, hid, exbind_ok]
    rw [if_neg (by decide)]
    simp only [Table.append, ← hbs, ← hs, henc0, exbind_ok, hschema,
      validate_uint64, henc1, hfile1, hfile2]
  refine ⟨b1, henc1, by rw [hlen1, ← hbs], hins, ?_, ?_⟩
  · unfold Table.size
    rw [hlen1']
    rw [show s * bs + bs = (s + 1) * bs by ring]
    exact Nat.mul_div_cancel _ hbs0
  · unfold Table.get
    rw [List.drop_left' htklen, hbs, ← hlen1, List.take_length]


/-- Witness for C2: inserting the record `{id: 0}` into an empty store of the
one-field schema `{id: Uint64}` returns id 1 and leaves one block, the
encoding of the record with id 1. -/
theorem insert_spec_witness :
    ∃ b1, Struct.as_bytes [("id", BaseField.uint64)]
        ([Value.int 0].set 0 (Value.int 1)) = .ok b1 ∧
      b1.length = 8 ∧
      Struct.insert [("id", BaseField.uint64)] 0 [Value.int 0] [] =
        .ok (1, [Value.int 0].set 0 (Value.int 1), ([] : List Nat).take 0 ++ b1) ∧
      Table.size 8 (([] : List Nat).take 0 ++ b1) = 1 ∧
      Table.get 8 (([] : List Nat).take 0 ++ b1) 0 = b1 :=
  insert_spec [("id", BaseField.uint64)] 0 [Value.int 0] [] 8 0 rfl rfl rfl rfl
    ⟨⟨by decide, by decide⟩, trivial⟩ (by decide)

/-- C7: `insert` on a record whose id is a nonzero integer always fails with
`IdError`; the raise precedes every table call in the source, so the failed
call performs no write and the store is unchanged. -/
theorem insert_nonzero_id_fails (schema : Schema) (idPos : Nat) (r : Record)
    (file : List Nat) (i : Int) (hget : r.get? idPos = some (.int i))
    (hi : i ≠ 0) :
    Struct.insert schema idPos r file = .error .idError := by
  have hz : ((i == 0) : Bool) = false := by
    simp only [beq_eq_false_iff_ne, ne_eq]
    exact hi
  simp only [Struct.insert, Struct.getId, hget, exbind_ok, Value.pyEqZero, hz,
    Bool.not_false, if_true]

/-- Witness for C7: a record whose id is already 5 is rejected. -/
theorem insert_nonzero_id_fails_witness :
    Struct.insert [("id", BaseField.uint64)] 0 [Value.int 5] [] = .error .idError :=
  insert_nonzero_id_fails [("id", BaseField.uint64)] 0 [Value.int 5] [] 5 rfl
    (by decide)


/-- C3 amended/corrected: `get(id)` for a valid id (`1 ≤ id ≤ size`) decodes
the block last written at index `id - 1`: when that block is the encoding of
a well-formed record `r` (the form `insert` and `update` write), the result
is `r` with every text field extended by the encoder's zero padding and any
`Float32` field re-rounded to single precision (`Struct.decodedRecord`),
exactly equal on all other fields — not `r` itself; for `id` outside the
range, `get` fails with `IdError` (and is read-only, so the store is
untouched). -/
theorem struct_get_spec (schema : Schema) (id : Int) (file : List Nat) :
    (∀ r b, Struct.wfRecord schema r → Struct.as_bytes schema r = .ok b →
      0 < id → id ≤ (Table.size (Struct.block_size schema) file : Int) →
      Table.get (Struct.block_size schema) file (id - 1).toNat = b →
      Struct.get schema id file = .ok (Struct.decodedRecord schema r)) ∧
    ((id ≤ 0 ∨ (Table.size (Struct.block_size schema) file : Int) < id) →
      Struct.get schema id file = .error .idError) := by
  constructor
  · intro r b hwf henc h1 h2 hblk
    have hcond : 0 < id ∧
        id ≤ ((Table.size (Struct.block_size schema) file : Nat) : Int) := ⟨h1, h2⟩
    simp only [Struct.get, Struct.get_index_by_id, if_pos hcond, exbind_ok, hblk]
    have hfb := Struct.from_bytes_as_bytes schema r b [] hwf henc
    rwa [List.append_nil] at hfb
  · intro hout
    have hneg : ¬(0 < id ∧
        id ≤ ((Table.size (Struct.block_size schema) file : Nat) : Int)) := by
      omega
    simp only [Struct.get, Struct.get_index_by_id, if_neg hneg, exbind_err]

/-- Witness for the amended C3: a store holding the encoding of `{id: 1}`;
`get 1` returns the decoded record and `get 5` fails with `IdError`. -/
theorem struct_get_spec_witness :
    Struct.get [("id", BaseField.uint64)] 1 (natToBytesBE 8 1) =
      .ok (Struct.decodedRecord [("id", BaseField.uint64)] [Value.int 1]) ∧
    Struct.get [("id", BaseField.uint64)] 5 (natToBytesBE 8 1) = .error .idError :=
  ⟨(struct_get_spec [("id", BaseField.uint64)] 1 (natToBytesBE 8 1)).1
      [Value.int 1] (natToBytesBE 8 1) ⟨⟨by decide, by decide⟩, trivial⟩ rfl
      (by decide) (by decide) (by decide),
    (struct_get_spec [("id", BaseField.uint64)] 5 (natToBytesBE 8 1)).2
      (by decide)⟩

/-- C3 counterexample: with the schema `{id: Uint64, name: Varchar(4)}`,
insert a record with name `"ab"`; `get 1` then returns a record whose name
is `"ab"` followed by two `NUL`s — not field-by-field equal to the state the
insert wrote. -/
theorem get_returns_padded_text :
    Struct.insert [("id", .uint64), ("name", .varchar 4)] 0
      [.int 0, .str [97, 98]] [] =
      .ok (1, [Value.int 1, Value.str [97, 98]],
        [0, 0, 0, 0, 0, 0, 0, 1, 97, 98, 0, 0]) ∧
    Struct.get [("id", .uint64), ("name", .varchar 4)] 1
      [0, 0, 0, 0, 0, 0, 0, 1, 97, 98, 0, 0] =
      .ok [Value.int 1, Value.str [97, 98, 0, 0]] ∧
    Value.str [97, 98, 0, 0] ≠ Value.str [97, 98] :=
  ⟨rfl, rfl, by decide⟩

end Mytable
